import Mathlib

/-!
Verification of the ingestion-and-classification pipeline of the
product-sentiment-analysis repository, by a shallow embedding of the Python
source into Lean.

Conventions of the embedding:
* Python strings are `String`/`List Char`; machine text operations
  (`str.strip`, `str.lower`, `re.sub`) are modelled on ASCII as the source
  uses them (`Char.toLower` maps only basic-latin letters, like the spec of
  `str.lower` on that range).
* Python floats that carry sentiment scores are modelled as `Rat`
  (the code only compares and scales them).
* Fallible calls (`weaviate` writes, network fetches, `session.commit`)
  return `Except String _`; an exception in Python is an `.error` here.
* SQLAlchemy sessions (`autoflush=False`, commit-on-exit, rollback on any
  exception — `app/db/session.py:get_session`) are explicit: a session holds
  the rows visible to SELECTs (`flushed`) and the rows added but not yet
  flushed (`pending`); `flush`/`commit` move pending rows into the store and
  fail on the `(platform, natural_id)` unique constraints declared in
  `app/db/models.py`.
* Python dicts are association lists that preserve insertion order
  (overwrite keeps the original position), as CPython guarantees; a Python
  `set` used only for dedup/summation is modelled as a first-seen-deduped
  list, which is one admissible iteration order.
-/

instance {e a : Type} [DecidableEq e] [DecidableEq a] : DecidableEq (Except e a)
  | .error e1, .error e2 =>
    if h : e1 = e2 then .isTrue (by rw [h]) else .isFalse (fun hc => by cases hc; exact h rfl)
  | .error _, .ok _ => .isFalse (fun hc => by cases hc)
  | .ok _, .error _ => .isFalse (fun hc => by cases hc)
  | .ok a1, .ok a2 =>
    if h : a1 = a2 then .isTrue (by rw [h]) else .isFalse (fun hc => by cases hc; exact h rfl)

-- Embedding of app/utils/text.py: normalize_text and the regexes it uses.

def isPySpace (c : Char) : Bool :=
  c.toNat = 32 || c.toNat = 9 || c.toNat = 10 || c.toNat = 13 || c.toNat = 11 || c.toNat = 12

def pyStrip (l : List Char) : List Char :=
  ((l.dropWhile isPySpace).reverse.dropWhile isPySpace).reverse

def schemePrefix (l : List Char) : Option (List Char) :=
  if l.take 8 = "https://".toList then some (l.drop 8)
  else if l.take 7 = "http://".toList then some (l.drop 7)
  else none

def urlMatch (l : List Char) : Option (List Char) :=
  match schemePrefix l with
  | none => none
  | some r =>
    match r with
    | [] => none
    | c :: rest => if isPySpace c then none else some (rest.dropWhile (fun d => !isPySpace d))

def removeUrlsAux : Nat → List Char → List Char
  | 0, _ => []
  | _ + 1, [] => []
  | fuel + 1, c :: rest =>
    match urlMatch (c :: rest) with
    | some rem => removeUrlsAux fuel rem
    | none => c :: removeUrlsAux fuel rest

def removeUrls (l : List Char) : List Char := removeUrlsAux l.length l

def collapseWs : List Char → List Char
  | [] => []
  | c :: rest =>
    let t := collapseWs rest
    if isPySpace c then (if t.head? = some ' ' then t else ' ' :: t) else c :: t

def pyLower (l : List Char) : List Char := l.map Char.toLower

def normalize_text (s : List Char) : List Char :=
  pyLower (collapseWs (removeUrls (pyStrip s)))

def noDoubleWs : List Char → Bool
  | c1 :: c2 :: rest => (!(isPySpace c1 && isPySpace c2)) && noDoubleWs (c2 :: rest)
  | _ => true

def allWsSpace (l : List Char) : Bool := l.all (fun c => !isPySpace c || c = ' ')

def noAsciiUpper (l : List Char) : Bool :=
  l.all (fun c => !(decide (65 ≤ c.toNat) && decide (c.toNat ≤ 90)))

def headOk : List Char → Bool
  | [] => true
  | c :: _ => !isPySpace c

def lastOk : List Char → Bool
  | [] => true
  | [c] => !isPySpace c
  | _ :: rest => lastOk rest

def noEdgeWs (l : List Char) : Bool := headOk l && lastOk l

def schemeAtCI (l : List Char) : Bool :=
  ((l.take 8).map Char.toLower = "https://".toList) || ((l.take 7).map Char.toLower = "http://".toList)

def containsSchemeCI : List Char → Bool
  | [] => false
  | c :: rest => schemeAtCI (c :: rest) || containsSchemeCI rest

def containsUrl : List Char → Bool
  | [] => false
  | c :: rest => (urlMatch (c :: rest)).isSome || containsUrl rest

/-- The body normalizer as the ingestion service calls it on Python `str`. -/
def normalizeStr (s : String) : String := ⟨normalize_text s.data⟩

-- Embedding of app/services/sentiment.py: SentimentService.fallback. The VADER
-- analyzer is an external library; it enters as the `polarityCompound`
-- parameter (text to compound score in [-1, 1]).

structure SentimentResult where
  sentiment : String
  confidence : Rat
  aspects : List (String × String)
  fallback : Bool
deriving DecidableEq

def fallbackClassify (polarityCompound : String → Rat) (texts : List String) :
    List SentimentResult :=
  texts.map (fun text =>
    let compound := polarityCompound text
    let sentiment :=
      if compound ≥ mkRat 5 100 then "positive"
      else if compound ≤ -(mkRat 5 100) then "negative"
      else "neutral"
    { sentiment := sentiment, confidence := |compound|, aspects := [], fallback := true })

def cexScorer : String → Rat := fun t =>
  if t = "I love this phone" then mkRat 8 10
  else if t = "I hate the battery" then mkRat (-6) 10
  else 0

-- Embedding of app/utils/openai_parser.py: parse_sentiment_payload.
-- A payload field is `none` when the key is missing; `confidence` also
-- records whether `float(...)` would succeed (`ConfVal.num v`) or raise
-- (`ConfVal.unparseable`). The aspects dict is an association list.

inductive ConfVal where
  | missing
  | unparseable
  | num (v : Rat)
deriving DecidableEq

structure SentimentPayload where
  sentiment : Option String
  confidence : ConfVal
  aspects : Option (List (String × String))
deriving DecidableEq

def EXPECTED_ASPECTS : List String :=
  ["price", "battery", "camera", "performance", "design", "availability",
   "software", "support", "other"]

structure ParsedSentiment where
  sentiment : String
  confidence : Rat
  aspects : List (String × String)
deriving DecidableEq

inductive OpenAIParseError where
  | invalidPayload
  | unsupportedSentiment (s : String)
deriving DecidableEq

def parse_sentiment_payload (p : SentimentPayload) :
    Except OpenAIParseError ParsedSentiment :=
  match p.sentiment, p.confidence with
  | none, _ => .error .invalidPayload
  | some _, .missing => .error .invalidPayload
  | some _, .unparseable => .error .invalidPayload
  | some s, .num v =>
    if s = "positive" ∨ s = "neutral" ∨ s = "negative" then
      .ok { sentiment := s, confidence := v,
            aspects := (p.aspects.getD []).filter (fun kv => kv.1 ∈ EXPECTED_ASPECTS) }
    else .error (.unsupportedSentiment s)

-- Embedding of app/services/weaviate_client.py: upsert_comment and
-- semantic_search. `client = none` models both the unconfigured endpoint and
-- a failed client initialization (`_ensure_client` leaves `_client = None`).
-- `pyOrStr`/`pyTruthyStr` model Python truthiness of `Optional[str]`.

structure SearchHit where
  uuid : String
  score : Rat
  properties : List (String × String)
deriving DecidableEq

structure VectorClient where
  update : String → List Rat → List (String × String) → Except String Unit
  insert : List Rat → List (String × String) → Except String String
  near_vector : List Rat → Nat → Except String (List SearchHit)

def pyTruthyStr : Option String → Bool
  | some s => s ≠ ""
  | none => false

def pyOrStr (x : Option String) (dflt : String) : String :=
  if pyTruthyStr x then x.getD dflt else dflt

def upsert_comment (client : Option VectorClient) (uuid : Option String)
    (vector : List Rat) (metadata : List (String × String)) : Except String String :=
  match client with
  | none => .ok (pyOrStr uuid "mock-uuid")
  | some c =>
    if pyTruthyStr uuid then
      (c.update (uuid.getD "") vector metadata).map (fun _ => uuid.getD "")
    else
      c.insert vector metadata

def semantic_search (client : Option VectorClient) (query_vector : List Rat)
    (limit : Nat) : Except String (List SearchHit) :=
  match client with
  | none => .ok []
  | some c => c.near_vector query_vector limit

-- Embedding of app/db/models.py: the Comment row (summary, vector_id and
-- the free-form meta_data JSON column are omitted: no claim reads them), and
-- of ClassificationService._load_comments (app/services/classification.py):
-- `select(Comment).where(processed is false)`, with the id restriction added
-- only when `if comment_ids:` finds the argument truthy — an empty list is
-- falsy in Python, so `some []` behaves exactly like `none`.

structure CommentRow where
  id : Nat
  platform : String
  comment_id : String
  product : String
  author : Option String
  body : String
  parent_id : Option String
  published_at : Int
  score : Int
  sentiment : Option String
  sentiment_confidence : Option Int
  aspects : List (String × String)
  weaviate_uuid : Option String
  processed : Bool
  content_item_id : String
deriving DecidableEq

def load_comments (store : List CommentRow) (comment_ids : Option (List Nat)) :
    List CommentRow :=
  let base := store.filter (fun c => c.processed = false)
  match comment_ids with
  | none => base
  | some [] => base
  | some ids => base.filter (fun c => c.id ∈ ids)

-- Embedding of ClassificationService.run_pending: one session for the whole
-- batch; per comment the relational mutation, the vector upsert (which may
-- raise) and `processed := true`; `session.flush()` plus the commit on clean
-- exit of `get_session` are `commitRows`; an exception rolls the whole
-- session back (`run_pending_final` then observes the unchanged store).
-- `intTrunc` is Python's `int(...)` truncation toward zero.

structure WMeta where
  comment_id : Nat
  product : String
  platform : String
  sentiment : String
  aspects : List String
  text : String
deriving DecidableEq

def intTrunc (q : Rat) : Int := if 0 ≤ q then q.floor else q.ceil

def classifyLoop (upsert : Option String → List Rat → WMeta → Except String String) :
    List (CommentRow × SentimentResult × List Rat) → Except String (List CommentRow)
  | [] => .ok []
  | (comment, sres, vector) :: rest =>
    let c1 := { comment with
      sentiment := some sres.sentiment,
      sentiment_confidence := some (intTrunc (sres.confidence * 100)),
      aspects := sres.aspects }
    let metadata : WMeta := {
      comment_id := c1.id, product := c1.product, platform := c1.platform,
      sentiment := sres.sentiment,
      aspects := if c1.aspects.isEmpty then [] else c1.aspects.map Prod.fst,
      text := c1.body }
    match upsert comment.weaviate_uuid vector metadata with
    | .error e => .error e
    | .ok wid =>
      match classifyLoop upsert rest with
      | .error e => .error e
      | .ok updated => .ok ({ c1 with weaviate_uuid := some wid, processed := true } :: updated)

def commitRows (store updated : List CommentRow) : List CommentRow :=
  store.map (fun c =>
    match updated.find? (fun u => u.id = c.id) with
    | some u => u
    | none => c)

def run_pending (upsert : Option String → List Rat → WMeta → Except String String)
    (sentiments : List SentimentResult) (embeddings : List (List Rat))
    (store : List CommentRow) (comment_ids : Option (List Nat)) :
    Except String (List CommentRow) :=
  let comments := load_comments store comment_ids
  if comments.isEmpty then .ok store
  else
    match classifyLoop upsert (comments.zip (sentiments.zip embeddings)) with
    | .error e => .error e
    | .ok updated => .ok (commitRows store updated)

def run_pending_final (upsert : Option String → List Rat → WMeta → Except String String)
    (sentiments : List SentimentResult) (embeddings : List (List Rat))
    (store : List CommentRow) (comment_ids : Option (List Nat)) : List CommentRow :=
  match run_pending upsert sentiments embeddings store comment_ids with
  | .ok s => s
  | .error _ => store

def upsertCex : Option String → List Rat → WMeta → Except String String :=
  fun _ _ md => if md.comment_id = 2 then .error "weaviate down" else .ok "w-1"

def rowCex (i : Nat) : CommentRow :=
  { id := i, platform := "reddit", comment_id := s!"c{i}", product := "pixel",
    author := some "alice", body := "battery is bad", parent_id := some "t3_root",
    published_at := 1700000000, score := 3, sentiment := none,
    sentiment_confidence := none, aspects := [], weaviate_uuid := none,
    processed := false, content_item_id := "item1" }

def storeCex : List CommentRow := [rowCex 1, rowCex 2]

def sentsCex : List SentimentResult :=
  [{ sentiment := "negative", confidence := mkRat 9 10, aspects := [("battery", "negative")],
     fallback := false },
   { sentiment := "negative", confidence := mkRat 8 10, aspects := [], fallback := false }]

def embsCex : List (List Rat) := [[1, 2], [3, 4]]

-- Embedding of app/services/channel_discovery.py: discover_reddit, lines
-- 43-61: the merge of strategy-A and strategy-B candidate dicts and the
-- final ranking. Entries carry the dict fields the merge reads; `dictInsert`
-- is Python dict assignment (overwrite keeps the key's position);
-- `List.insertionSort` with `scoreGE` models the stable
-- `sorted(..., key=score, reverse=True)`.

structure DiscMetrics where
  mentions : Nat
  avg_score : Rat
  comments : Nat
deriving DecidableEq

structure DiscEntry where
  channel_id : String
  name : String
  score : Rat
  metrics : DiscMetrics
deriving DecidableEq

def dictInsert (m : List (String × DiscEntry)) (k : String) (v : DiscEntry) :
    List (String × DiscEntry) :=
  if m.any (fun kv => kv.1 = k) then
    m.map (fun kv => if kv.1 = k then (k, v) else kv)
  else m ++ [(k, v)]

def dictLookup (m : List (String × DiscEntry)) (k : String) : Option DiscEntry :=
  (m.find? (fun kv => kv.1 = k)).map Prod.snd

def mergeCandidates (aResults bResults : List DiscEntry) : List (String × DiscEntry) :=
  let mergedA := aResults.foldl (fun m item => dictInsert m item.channel_id item) []
  bResults.foldl (fun m item =>
    match dictLookup m item.channel_id with
    | none => dictInsert m item.channel_id item
    | some prev => if item.score > prev.score then dictInsert m item.channel_id item else m)
    mergedA

def scoreGE (x y : DiscEntry) : Prop := y.score ≤ x.score

instance : DecidableRel scoreGE := fun x y => inferInstanceAs (Decidable (y.score ≤ x.score))

instance : IsTotal DiscEntry scoreGE := ⟨fun x y => le_total y.score x.score⟩

instance : IsTrans DiscEntry scoreGE := ⟨fun _ _ _ h1 h2 => le_trans h2 h1⟩

def discover_reddit_ranked (aResults bResults : List DiscEntry) : List DiscEntry :=
  (((mergeCandidates aResults bResults).map Prod.snd).insertionSort scoreGE).take 20

def mEx : DiscMetrics := { mentions := 3, avg_score := 2, comments := 4 }

def eaEx : DiscEntry := { channel_id := "android", name := "r/android", score := 5, metrics := mEx }
def ebEx : DiscEntry :=
  { channel_id := "android", name := "r/android", score := 7,
    metrics := { mentions := 9, avg_score := 1, comments := 2 } }
def eaEx2 : DiscEntry := { channel_id := "pixel", name := "r/pixel", score := 4, metrics := mEx }
def ebEx2 : DiscEntry :=
  { channel_id := "pixel", name := "r/pixel (b)", score := 4,
    metrics := { mentions := 1, avg_score := 1, comments := 1 } }

-- Embedding of app/services/alias_helper.py: suggest_reddit_queries and
-- suggest_subreddits. The provider outcome is `.error ()` when any exception
-- reaches the surrounding `try` (the handler returns `[]`), `.ok none` when
-- the parsed JSON is not a list, `.ok (some items)` otherwise. `dedupeCap`
-- is the dedupe loop with its break at 20; `alnumRuns` is
-- `re.split("[^a-zA-Z0-9]+", ...)` keeping the non-empty runs; `isSubstrCh`
-- is Python's `tok in s`; the set comprehension over candidates is modelled
-- as a first-seen dedup (one admissible set order — the refutation below is
-- forced by distinct sort keys, so it holds under every set order).

def pyStripStr (s : String) : String := ⟨pyStrip s.data⟩

def pyLowerStr (s : String) : String := ⟨pyLower s.data⟩

def pySlice (n : Nat) (s : String) : String := ⟨s.data.take n⟩

inductive JVal where
  | str (s : String)
  | other
deriving DecidableEq

def extractQueries (data : Option (List JVal)) : List String :=
  match data with
  | none => []
  | some items =>
    items.filterMap (fun j =>
      match j with
      | .str s =>
        let q := pyStripStr s
        if q ≠ "" then some (pySlice 128 q) else none
      | .other => none)

def dedupeSeen (seen : List String) : List String → List String
  | [] => []
  | q :: rest => if q ∈ seen then dedupeSeen seen rest else q :: dedupeSeen (q :: seen) rest

def dedupeCap : List String → List String → Nat → List String
  | [], _, _ => []
  | q :: rest, seen, n =>
    if q ∈ seen then dedupeCap rest seen n
    else if n + 1 ≥ 20 then [q]
    else q :: dedupeCap rest (q :: seen) (n + 1)

def suggest_reddit_queries (provider : Except Unit (Option (List JVal))) : List String :=
  match provider with
  | .error _ => []
  | .ok data => dedupeCap (extractQueries data) [] 0

def startsWithRSlash (s : String) : Bool :=
  match s.data with
  | 'r' :: '/' :: _ => true
  | _ => false

def dropStr (n : Nat) (s : String) : String := ⟨s.data.drop n⟩

def extractSubredditCandidates (data : Option (List JVal)) : List String :=
  match data with
  | none => []
  | some items =>
    items.filterMap (fun j =>
      match j with
      | .str s =>
        if pyStripStr s ≠ "" then
          let name := pyStripStr s
          some (if startsWithRSlash name then dropStr 2 name else name)
        else none
      | .other => none)

def isAsciiAlnum (c : Char) : Bool :=
  (48 ≤ c.toNat && c.toNat ≤ 57) || (65 ≤ c.toNat && c.toNat ≤ 90) ||
    (97 ≤ c.toNat && c.toNat ≤ 122)

def alnumRuns : List Char → List (List Char)
  | [] => []
  | c :: rest =>
    let rs := alnumRuns rest
    if isAsciiAlnum c then
      match rest, rs with
      | d :: _, r :: rs' => if isAsciiAlnum d then (c :: r) :: rs' else [c] :: rs
      | _, _ => [c] :: rs
    else rs

def toTokens (items : List String) : List String :=
  dedupeSeen [] (items.flatMap (fun it =>
    ((alnumRuns (pyLowerStr it).data).map (fun cs => (⟨cs⟩ : String))).filter
      (fun t => t.length > 1)))

def startsWithChars : List Char → List Char → Bool
  | [], _ => true
  | _ :: _, [] => false
  | a :: as, b :: bs => a = b && startsWithChars as bs

def isSubstrCh (needle : List Char) : List Char → Bool
  | [] => needle.isEmpty
  | hay@(_ :: rest) => startsWithChars needle hay || isSubstrCh needle rest

def overlapScore (tokens : List String) (s : String) : Nat :=
  (tokens.filter (fun tok => isSubstrCh tok.data (pyLowerStr s).data)).length

def overlapGE (tokens : List String) (a b : String) : Prop :=
  overlapScore tokens b ≤ overlapScore tokens a

instance (tokens : List String) : DecidableRel (overlapGE tokens) :=
  fun a b => inferInstanceAs (Decidable (overlapScore tokens b ≤ overlapScore tokens a))

instance (tokens : List String) : IsTotal String (overlapGE tokens) :=
  ⟨fun a b => Nat.le_total (overlapScore tokens b) (overlapScore tokens a)⟩

instance (tokens : List String) : IsTrans String (overlapGE tokens) :=
  ⟨fun _ _ _ h1 h2 => Nat.le_trans h2 h1⟩

def suggest_subreddits (products : List String)
    (provider : Except Unit (Option (List JVal))) : List String :=
  match provider with
  | .error _ => []
  | .ok data =>
    let candidates := extractSubredditCandidates data
    let product_tokens := toTokens products
    let unique_candidates := dedupeSeen [] (candidates.filter (fun c => c ≠ ""))
    (unique_candidates.insertionSort (overlapGE product_tokens)).take 20

def cexSubData : Option (List JVal) := some [.str "androidphones", .str "pixel"]

-- Embedding of app/services/ingestion.py. One session per source spans all
-- products (`_ingest_reddit`, `_ingest_youtube`); per product the fetch is
-- retried up to 3 attempts (`backoff.on_exception(..., max_tries=3)`, here
-- `retry3` over an attempt-indexed outcome function); `_get_or_create_content`
-- flushes after inserting (making the row visible to later SELECTs in the
-- same run), `_upsert_comment` does read-then-insert with NO flush
-- (`autoflush=False`), so its pending rows stay invisible until the next
-- flush or the commit. The reddit and youtube product loops share this
-- structure; the embedding parameterizes the platform. SourceChannel
-- resolution and the per-field differences of the youtube payloads are
-- omitted: no claim reads them.

structure ContentRow where
  platform : String
  item_id : String
  product : String
  title : String
  url : String
  author : Option String
  published_at : Int
  score : Int
  channel_id : String
deriving DecidableEq

structure CommentInput where
  id : String
  author : Option String
  body : Option String
  parent_id : String
  created_utc : Int
  score : Int
deriving DecidableEq

structure Submission where
  id : String
  subreddit : String
  title : String
  url : String
  author : Option String
  created_utc : Int
  score : Int
  comments : List CommentInput
deriving DecidableEq

structure IngestStore where
  contents : List ContentRow
  comments : List CommentRow
deriving DecidableEq

structure IngestSession where
  flushed : IngestStore
  pendingComments : List CommentRow
  nextId : Nat
deriving DecidableEq

def sessionStart (st : IngestStore) : IngestSession :=
  { flushed := st, pendingComments := [], nextId := st.comments.length }

def upsert_comment_ing (platform : String) (s : IngestSession) (c : CommentInput)
    (content : ContentRow) (product : String) : IngestSession :=
  if s.flushed.comments.any (fun row => row.platform = platform && row.comment_id = c.id) then
    s
  else
    let record : CommentRow := {
      id := s.nextId,
      platform := platform,
      comment_id := c.id,
      product := product,
      author := some (c.author.getD "unknown"),
      body := normalizeStr (c.body.getD ""),
      parent_id := some c.parent_id,
      published_at := c.created_utc,
      score := c.score,
      sentiment := none, sentiment_confidence := none, aspects := [],
      weaviate_uuid := none, processed := false,
      content_item_id := content.item_id }
    { s with pendingComments := s.pendingComments ++ [record], nextId := s.nextId + 1 }

def flushComments (db : List CommentRow) : List CommentRow → Except String (List CommentRow)
  | [] => .ok db
  | r :: rest =>
    if db.any (fun row => row.platform = r.platform && row.comment_id = r.comment_id) then
      .error "IntegrityError: uq_platform_comment"
    else flushComments (db ++ [r]) rest

def sessionFlush (s : IngestSession) : Except String IngestSession :=
  match flushComments s.flushed.comments s.pendingComments with
  | .error e => .error e
  | .ok db => .ok { s with flushed := { s.flushed with comments := db }, pendingComments := [] }

def get_or_create_content (platform : String) (s : IngestSession) (sub : Submission)
    (product : String) : Except String (IngestSession × ContentRow) :=
  match s.flushed.contents.find? (fun row => row.platform = platform && row.item_id = sub.id) with
  | some existing => .ok (s, existing)
  | none =>
    let content : ContentRow := {
      platform := platform, item_id := sub.id, product := product,
      title := sub.title, url := sub.url, author := some (sub.author.getD "unknown"),
      published_at := sub.created_utc, score := sub.score, channel_id := sub.subreddit }
    let s1 := { s with flushed := { s.flushed with contents := s.flushed.contents ++ [content] } }
    match sessionFlush s1 with
    | .error e => .error e
    | .ok s2 => .ok (s2, content)

def ingest_product (platform : String) (s : IngestSession) (subs : List Submission)
    (product : String) : Except String IngestSession :=
  match subs with
  | [] => .ok s
  | sub :: rest =>
    match get_or_create_content platform s sub product with
    | .error e => .error e
    | .ok (s1, content) =>
      let s2 := sub.comments.foldl
        (fun st c => upsert_comment_ing platform st c content product) s1
      ingest_product platform s2 rest product

def retry3 {α : Type} (attempts : Nat → Except String α) : Except String α :=
  match attempts 0 with
  | .ok v => .ok v
  | .error _ =>
    match attempts 1 with
    | .ok v => .ok v
    | .error _ => attempts 2

def ingest_source_products (platform : String)
    (fetch : String → Nat → Except String (List Submission))
    (products : List String) (s : IngestSession) : Except String IngestSession :=
  match products with
  | [] => .ok s
  | p :: rest =>
    match retry3 (fetch p) with
    | .error e => .error e
    | .ok subs =>
      match ingest_product platform s subs p with
      | .error e => .error e
      | .ok s1 => ingest_source_products platform fetch rest s1

def sessionCommit (s : IngestSession) : Except String IngestStore :=
  match flushComments s.flushed.comments s.pendingComments with
  | .error e => .error e
  | .ok db => .ok { s.flushed with comments := db }

def ingest_source (platform : String)
    (fetch : String → Nat → Except String (List Submission))
    (products : List String) (committed : IngestStore) : Except String IngestStore :=
  match ingest_source_products platform fetch products (sessionStart committed) with
  | .error e => .error e
  | .ok s => sessionCommit s

def run_once (redditFetch youtubeFetch : String → Nat → Except String (List Submission))
    (products : List String) (committed : IngestStore) : Except String IngestStore :=
  match ingest_source "reddit" redditFetch products committed with
  | .error e => .error e
  | .ok st1 => ingest_source "youtube" youtubeFetch products st1

def run_once_final (redditFetch youtubeFetch : String → Nat → Except String (List Submission))
    (products : List String) (committed : IngestStore) : IngestStore :=
  match ingest_source "reddit" redditFetch products committed with
  | .error _ => committed
  | .ok st1 =>
    match ingest_source "youtube" youtubeFetch products st1 with
    | .error _ => st1
    | .ok st2 => st2

def commentKeys (rows : List CommentRow) : List (String × String) :=
  rows.map (fun r => (r.platform, r.comment_id))

def cInEx : CommentInput :=
  { id := "cm1", author := some "bob", body := some "Nice  phone", parent_id := "t3_x",
    created_utc := 100, score := 2 }

def subEx : Submission :=
  { id := "s1", subreddit := "android", title := "T", url := "http://u",
    author := some "ann", created_utc := 90, score := 5, comments := [cInEx] }

def subEx2 : Submission :=
  { id := "v1", subreddit := "ytchan", title := "V", url := "http://v",
    author := some "yt", created_utc := 95, score := 1, comments := [] }

def emptyIngestStore : IngestStore := { contents := [], comments := [] }

def redditFetchCex : String → Nat → Except String (List Submission) :=
  fun p _ => if p = "alpha" then .error "reddit 503" else .ok [subEx]

def youtubeFetchCex : String → Nat → Except String (List Submission) :=
  fun _ _ => .ok [subEx2]

def fetchDup : String → Nat → Except String (List Submission) :=
  fun _ _ => .ok [subEx, subEx]

-- ===== Helper lemmas =====

-- Char lemmas

theorem toNat_ofNat_valid {m : Nat} (h : m < 55296) :
    Char.toNat (Char.ofNat m) = m := by
  rw [Char.ofNat, dif_pos]
  · rfl
  · constructor; omega

theorem isPySpace_toLower (c : Char) : isPySpace (Char.toLower c) = isPySpace c := by
  unfold Char.toLower
  dsimp only []
  split
  · next h =>
    have hv : Char.toNat (Char.ofNat (Char.toNat c + 32)) = Char.toNat c + 32 :=
      toNat_ofNat_valid (by omega)
    have h1 := h.1
    have h2 := h.2
    have lhs : isPySpace (Char.ofNat (Char.toNat c + 32)) = false := by
      simp only [isPySpace, hv, Bool.or_eq_false_iff, decide_eq_false_iff_not]
      omega
    have rhs : isPySpace c = false := by
      simp only [isPySpace, Bool.or_eq_false_iff, decide_eq_false_iff_not]
      omega
    rw [lhs, rhs]
  · rfl

theorem noUpper_toLower (c : Char) :
    ¬ (65 ≤ Char.toNat (Char.toLower c) ∧ Char.toNat (Char.toLower c) ≤ 90) := by
  unfold Char.toLower
  dsimp only []
  split
  · next h =>
    have hv : Char.toNat (Char.ofNat (Char.toNat c + 32)) = Char.toNat c + 32 :=
      toNat_ofNat_valid (by omega)
    rw [hv]; omega
  · next h => omega

theorem toLower_idem (c : Char) : Char.toLower (Char.toLower c) = Char.toLower c := by
  have h := noUpper_toLower c
  generalize hd : Char.toLower c = d at h ⊢
  unfold Char.toLower
  dsimp only []
  rw [if_neg]
  exact fun hc => h ⟨hc.1, hc.2⟩

theorem toLower_eq_self_of_ws {c : Char} (h : isPySpace c = true) : Char.toLower c = c := by
  unfold Char.toLower
  dsimp only []
  split
  · next hc =>
    simp only [isPySpace, Bool.or_eq_true, decide_eq_true_eq] at h
    omega
  · rfl

-- collapseWs basic lemmas

theorem collapseWs_eq_nil_iff (l : List Char) : collapseWs l = [] ↔ l = [] := by
  cases l with
  | nil => simp [collapseWs]
  | cons c rest =>
    simp only [collapseWs]
    constructor
    · intro h
      split at h
      · split at h
        · next hh =>
          rw [h] at hh
          simp at hh
        · simp at h
      · simp at h
    · intro h
      cases h

theorem allWsSpace_collapseWs (l : List Char) : allWsSpace (collapseWs l) = true := by
  induction l with
  | nil => simp [collapseWs, allWsSpace]
  | cons c rest ih =>
    simp only [collapseWs]
    split
    · split
      · exact ih
      · simpa [allWsSpace] using ih
    · next hc =>
      simp only [allWsSpace, List.all_cons] at *
      simp [hc, ih]

theorem headOk_collapseWs (l : List Char) : headOk (collapseWs l) = headOk l := by
  cases l with
  | nil => rfl
  | cons c rest =>
    simp only [collapseWs]
    split
    · next hc =>
      have hsp : isPySpace ' ' = true := by decide
      split
      · next hh =>
        cases ht : (collapseWs rest) with
        | nil => rw [ht] at hh; simp at hh
        | cons d t' =>
          rw [ht] at hh
          simp only [List.head?] at hh
          cases hh
          simp [headOk, hc, hsp]
      · simp [headOk, hc, hsp]
    · next hc =>
      simp [headOk, hc]

theorem noDoubleWs_tail {c : Char} {l : List Char} (h : noDoubleWs (c :: l) = true) :
    noDoubleWs l = true := by
  cases l with
  | nil => rfl
  | cons d rest => simp only [noDoubleWs, Bool.and_eq_true] at h; exact h.2

theorem noDoubleWs_cons_of_headOk {c : Char} {l : List Char}
    (h1 : isPySpace c = false ∨ headOk l = true) (h2 : noDoubleWs l = true) :
    noDoubleWs (c :: l) = true := by
  cases l with
  | nil => rfl
  | cons d rest =>
    simp only [noDoubleWs, Bool.and_eq_true]
    refine ⟨?_, h2⟩
    rcases h1 with h | h
    · simp [h]
    · simp only [headOk, Bool.not_eq_true'] at h
      simp [h]

theorem noDoubleWs_collapseWs (l : List Char) : noDoubleWs (collapseWs l) = true := by
  induction l with
  | nil => rfl
  | cons c rest ih =>
    simp only [collapseWs]
    split
    · split
      · exact ih
      · next hh =>
        refine noDoubleWs_cons_of_headOk (Or.inr ?_) ih
        cases ht : (collapseWs rest) with
        | nil => rfl
        | cons d t' =>
          rw [ht] at hh
          simp only [List.head?] at hh
          have hd : d ≠ ' ' := fun he => hh (by rw [he])
          have := allWsSpace_collapseWs rest
          rw [ht] at this
          simp only [allWsSpace, List.all_cons, Bool.and_eq_true] at this
          have hds := this.1
          simp only [Bool.or_eq_true, Bool.not_eq_true', decide_eq_true_eq] at hds
          rcases hds with h | h
          · simp [headOk, h]
          · exact absurd h hd
    · next hc =>
      exact noDoubleWs_cons_of_headOk (Or.inl (by simpa using hc)) ih

theorem collapseWs_cons (c : Char) (rest : List Char) :
    collapseWs (c :: rest) =
      if isPySpace c then
        (if (collapseWs rest).head? = some ' ' then collapseWs rest else ' ' :: collapseWs rest)
      else c :: collapseWs rest := rfl

theorem lastOk_cons_of_ne {c : Char} {l : List Char} (h : l ≠ []) :
    lastOk (c :: l) = lastOk l := by
  cases l with
  | nil => exact absurd rfl h
  | cons d rest => rfl

theorem lastOk_collapseWs {l : List Char} (h : lastOk l = true) :
    lastOk (collapseWs l) = true := by
  induction l with
  | nil => exact h
  | cons c rest ih =>
    rw [collapseWs_cons]
    cases rest with
    | nil =>
      simp only [lastOk] at h
      have hc : isPySpace c = false := by simpa using h
      simp [collapseWs, hc, lastOk, h]
    | cons d rest' =>
      rw [lastOk_cons_of_ne (by simp)] at h
      have iht := ih h
      have hne : collapseWs (d :: rest') ≠ [] := by
        rw [Ne, collapseWs_eq_nil_iff]; simp
      split
      · split
        · exact iht
        · rw [lastOk_cons_of_ne hne]; exact iht
      · rw [lastOk_cons_of_ne hne]; exact iht

theorem collapseWs_id {l : List Char} (h1 : noDoubleWs l = true) (h2 : allWsSpace l = true) :
    collapseWs l = l := by
  induction l with
  | nil => rfl
  | cons c rest ih =>
    have h2t : allWsSpace rest = true := by
      simp only [allWsSpace, List.all_cons, Bool.and_eq_true] at h2; exact h2.2
    have ht : collapseWs rest = rest := ih (noDoubleWs_tail h1) h2t
    rw [collapseWs_cons, ht]
    by_cases hc : isPySpace c
    · have hce : c = ' ' := by
        simp only [allWsSpace, List.all_cons, Bool.and_eq_true] at h2
        have hh := h2.1
        simp only [Bool.or_eq_true, Bool.not_eq_true', decide_eq_true_eq] at hh
        rcases hh with h | h
        · rw [h] at hc; cases hc
        · exact h
      subst hce
      rw [if_pos hc, if_neg]
      cases rest with
      | nil => simp
      | cons d rest' =>
        intro hh
        simp only [List.head?, Option.some.injEq] at hh
        simp only [noDoubleWs, Bool.and_eq_true] at h1
        have hnd := h1.1
        rw [hh, hc] at hnd
        simp at hnd
    · rw [if_neg hc]

theorem take_collapseWs_nonWs {l : List Char} {k : Nat}
    (h : ((collapseWs l).take k).all (fun c => !isPySpace c) = true) :
    (collapseWs l).take k = l.take k := by
  induction l generalizing k with
  | nil => rfl
  | cons c rest ih =>
    rw [collapseWs_cons] at h ⊢
    by_cases hc : isPySpace c
    · rw [if_pos hc] at h ⊢
      cases k with
      | zero => simp
      | succ k' =>
        exfalso
        by_cases hh : (collapseWs rest).head? = some ' '
        · rw [if_pos hh] at h
          cases ht : collapseWs rest with
          | nil => rw [ht] at hh; simp at hh
          | cons d t' =>
            rw [ht] at hh h
            simp only [List.head?, Option.some.injEq] at hh
            subst hh
            rw [List.take_succ_cons, List.all_cons, Bool.and_eq_true] at h
            exact absurd h.1 (by decide)
        · rw [if_neg hh] at h
          rw [List.take_succ_cons, List.all_cons, Bool.and_eq_true] at h
          exact absurd h.1 (by decide)
    · rw [if_neg hc] at h ⊢
      cases k with
      | zero => simp
      | succ k' =>
        rw [List.take_succ_cons, List.all_cons, Bool.and_eq_true] at h
        rw [List.take_succ_cons, List.take_succ_cons, ih h.2]

-- Scheme occurrence lemmas

theorem schemeAtCI_of_schemePrefix {l : List Char} {r : List Char}
    (h : schemePrefix l = some r) : schemeAtCI l = true := by
  unfold schemePrefix at h
  split at h
  · next ht =>
    simp only [schemeAtCI, Bool.or_eq_true, decide_eq_true_eq]
    left
    rw [ht]
    decide
  · split at h
    · next ht =>
      simp only [schemeAtCI, Bool.or_eq_true, decide_eq_true_eq]
      right
      rw [ht]
      decide
    · cases h

theorem urlMatch_none_of_CS {l : List Char} (h : containsSchemeCI l = false) :
    urlMatch l = none := by
  cases l with
  | nil => rfl
  | cons c rest =>
    simp only [containsSchemeCI, Bool.or_eq_false_iff] at h
    unfold urlMatch
    cases hp : schemePrefix (c :: rest) with
    | none => rfl
    | some r =>
      have := schemeAtCI_of_schemePrefix hp
      rw [this] at h
      cases h.1

theorem removeUrlsAux_id {fuel : Nat} {l : List Char} (hf : l.length ≤ fuel)
    (h : containsSchemeCI l = false) : removeUrlsAux fuel l = l := by
  induction fuel generalizing l with
  | zero =>
    cases l with
    | nil => rfl
    | cons c rest => simp at hf
  | succ fuel ih =>
    cases l with
    | nil => rfl
    | cons c rest =>
      simp only [removeUrlsAux]
      rw [urlMatch_none_of_CS h]
      have ht : containsSchemeCI rest = false := by
        simp only [containsSchemeCI, Bool.or_eq_false_iff] at h
        exact h.2
      simp only [List.length_cons] at hf
      rw [ih (by omega) ht]

theorem removeUrls_id {l : List Char} (h : containsSchemeCI l = false) :
    removeUrls l = l :=
  removeUrlsAux_id (Nat.le_refl _) h

theorem containsUrl_imp_CS {l : List Char} (h : containsUrl l = true) :
    containsSchemeCI l = true := by
  induction l with
  | nil => cases h
  | cons c rest ih =>
    simp only [containsUrl, Bool.or_eq_true] at h
    simp only [containsSchemeCI, Bool.or_eq_true]
    rcases h with h | h
    · left
      cases hu : urlMatch (c :: rest) with
      | none => rw [hu] at h; cases h
      | some r =>
        unfold urlMatch at hu
        cases hp : schemePrefix (c :: rest) with
        | none => rw [hp] at hu; cases hu
        | some r' => exact schemeAtCI_of_schemePrefix hp
    · right; exact ih h

theorem CS_suffix {l m : List Char} (hs : m <:+ l) (h : containsSchemeCI l = false) :
    containsSchemeCI m = false := by
  induction l with
  | nil =>
    rw [List.suffix_nil.mp hs]
    rfl
  | cons c rest ih =>
    rcases hs with ⟨t, hts⟩
    cases t with
    | nil =>
      rw [List.nil_append] at hts
      rw [hts]
      exact h
    | cons a t' =>
      simp only [List.cons_append, List.cons.injEq] at hts
      have hmr : m <:+ rest := ⟨t', hts.2⟩
      simp only [containsSchemeCI, Bool.or_eq_false_iff] at h
      exact ih hmr h.2

theorem take_eq_of_front {m l : List Char} {n : Nat} (hp : m <+: l) (hn : n ≤ m.length) :
    l.take n = m.take n := by
  obtain ⟨t, rfl⟩ := hp
  exact List.take_append_of_le_length hn

theorem schemeAtCI_of_front {m l : List Char} (hp : m <+: l) (h : schemeAtCI m = true) :
    schemeAtCI l = true := by
  simp only [schemeAtCI, Bool.or_eq_true, decide_eq_true_eq] at h ⊢
  rcases h with h | h
  · left
    have hlen : m.length ≥ 8 := by
      have := congrArg List.length h
      simp [List.length_take, List.length_map] at this
      omega
    rw [take_eq_of_front hp (by omega)]
    exact h
  · right
    have hlen : m.length ≥ 7 := by
      have := congrArg List.length h
      simp [List.length_take, List.length_map] at this
      omega
    rw [take_eq_of_front hp (by omega)]
    exact h

theorem CS_front {l m : List Char} (hp : m <+: l) (h : containsSchemeCI l = false) :
    containsSchemeCI m = false := by
  induction l generalizing m with
  | nil =>
    rw [List.prefix_nil.mp hp]
    rfl
  | cons c rest ih =>
    cases m with
    | nil => rfl
    | cons a m' =>
      have hha : a = c := by
        rcases hp with ⟨t, hts⟩
        simp only [List.cons_append, List.cons.injEq] at hts
        exact hts.1
      subst hha
      have hmp : m' <+: rest := by
        rcases hp with ⟨t, hts⟩
        simp only [List.cons_append, List.cons.injEq] at hts
        exact ⟨t, hts.2⟩
      simp only [containsSchemeCI, Bool.or_eq_false_iff] at h ⊢
      constructor
      · cases hsa : schemeAtCI (a :: m') with
        | false => rfl
        | true =>
          rw [schemeAtCI_of_front (by exact hp) hsa] at h
          exact h.1.symm ▸ rfl
      · exact ih hmp h.2

theorem CS_part {l m : List Char} (hi : m <:+: l) (h : containsSchemeCI l = false) :
    containsSchemeCI m = false := by
  rcases hi with ⟨t, s, rfl⟩
  have h1 : containsSchemeCI (m ++ s) = false := CS_suffix ⟨t, by rw [List.append_assoc]⟩ h
  exact CS_front ⟨s, rfl⟩ h1

-- collapse cannot create a scheme occurrence

theorem all_nonWs_map_toLower (w : List Char) :
    (w.map Char.toLower).all (fun c => !isPySpace c) = w.all (fun c => !isPySpace c) := by
  induction w with
  | nil => rfl
  | cons c rest ih =>
    simp only [List.map_cons, List.all_cons, isPySpace_toLower, ih]

theorem schemeAtCI_window_nonWs {m : List Char} (h : schemeAtCI m = true) :
    ((m.take 8).all (fun c => !isPySpace c) = true ∧
      ((m.map Char.toLower).take 8 = "https://".toList)) ∨
    ((m.take 7).all (fun c => !isPySpace c) = true ∧
      ((m.map Char.toLower).take 7 = "http://".toList)) := by
  simp only [schemeAtCI, Bool.or_eq_true, decide_eq_true_eq] at h
  rcases h with h | h
  · left
    constructor
    · rw [← all_nonWs_map_toLower, h]
      decide
    · rw [← List.map_take, h]
  · right
    constructor
    · rw [← all_nonWs_map_toLower, h]
      decide
    · rw [← List.map_take, h]

theorem schemeAtCI_cons_ws {c : Char} {m : List Char} (h : isPySpace c = true) :
    schemeAtCI (c :: m) = false := by
  have hlit8 : "https://".toList = 'h' :: 't' :: 't' :: 'p' :: 's' :: ':' :: '/' :: '/' :: [] := rfl
  have hlit7 : "http://".toList = 'h' :: 't' :: 't' :: 'p' :: ':' :: '/' :: '/' :: [] := rfl
  simp only [schemeAtCI, Bool.or_eq_false_iff, decide_eq_false_iff_not]
  constructor
  · intro hc
    rw [List.take_succ_cons, List.map_cons, hlit8] at hc
    have hh : Char.toLower c = 'h' := (List.cons.injEq _ _ _ _).mp hc |>.1
    have := isPySpace_toLower c
    rw [hh, h] at this
    exact absurd this.symm (by decide)
  · intro hc
    rw [List.take_succ_cons, List.map_cons, hlit7] at hc
    have hh : Char.toLower c = 'h' := (List.cons.injEq _ _ _ _).mp hc |>.1
    have := isPySpace_toLower c
    rw [hh, h] at this
    exact absurd this.symm (by decide)

theorem CS_collapse_rev (l : List Char) (h : containsSchemeCI (collapseWs l) = true) :
    containsSchemeCI l = true := by
  induction l with
  | nil => exact h
  | cons c rest ih =>
    rw [collapseWs_cons] at h
    by_cases hc : isPySpace c
    · rw [if_pos hc] at h
      by_cases hh : (collapseWs rest).head? = some ' '
      · rw [if_pos hh] at h
        simp only [containsSchemeCI, Bool.or_eq_true]
        right
        exact ih h
      · rw [if_neg hh] at h
        simp only [containsSchemeCI, Bool.or_eq_true] at h
        rcases h with h | h
        · rw [schemeAtCI_cons_ws (by decide)] at h
          cases h
        · simp only [containsSchemeCI, Bool.or_eq_true]
          right
          exact ih h
    · rw [if_neg hc] at h
      simp only [containsSchemeCI, Bool.or_eq_true] at h ⊢
      rcases h with h | h
      · left
        have hcol : collapseWs (c :: rest) = c :: collapseWs rest := by
          rw [collapseWs_cons, if_neg hc]
        rcases schemeAtCI_window_nonWs h with ⟨hnw, hmap⟩ | ⟨hnw, hmap⟩
        · have htake : (collapseWs (c :: rest)).take 8 = (c :: rest).take 8 := by
            apply take_collapseWs_nonWs
            rw [hcol]; exact hnw
          rw [hcol] at htake
          have hfin : ((c :: rest).take 8).map Char.toLower = "https://".toList := by
            rw [← htake, List.map_take, hmap]
          simp only [schemeAtCI, Bool.or_eq_true, decide_eq_true_eq]
          left
          exact hfin
        · have htake : (collapseWs (c :: rest)).take 7 = (c :: rest).take 7 := by
            apply take_collapseWs_nonWs
            rw [hcol]; exact hnw
          rw [hcol] at htake
          have hfin : ((c :: rest).take 7).map Char.toLower = "http://".toList := by
            rw [← htake, List.map_take, hmap]
          simp only [schemeAtCI, Bool.or_eq_true, decide_eq_true_eq]
          right
          exact hfin
      · right
        exact ih h

theorem CS_collapse {l : List Char} (h : containsSchemeCI l = false) :
    containsSchemeCI (collapseWs l) = false := by
  cases hc : containsSchemeCI (collapseWs l) with
  | false => rfl
  | true => rw [CS_collapse_rev l hc] at h; cases h

theorem CS_pyLower (l : List Char) : containsSchemeCI (pyLower l) = containsSchemeCI l := by
  induction l with
  | nil => rfl
  | cons c rest ih =>
    show (schemeAtCI (List.map Char.toLower (c :: rest)) ||
        containsSchemeCI (List.map Char.toLower rest)) = _
    have hsa : schemeAtCI (List.map Char.toLower (c :: rest)) = schemeAtCI (c :: rest) := by
      simp only [schemeAtCI, ← List.map_take, List.map_map]
      have hcomp : Char.toLower ∘ Char.toLower = Char.toLower := by
        funext d
        exact toLower_idem d
      rw [hcomp]
    rw [hsa]
    have hmap : containsSchemeCI (List.map Char.toLower rest) = containsSchemeCI rest := ih
    rw [hmap]
    rfl

theorem headOk_pyLower (l : List Char) : headOk (pyLower l) = headOk l := by
  cases l with
  | nil => rfl
  | cons c rest => simp [pyLower, headOk, isPySpace_toLower]

theorem lastOk_pyLower (l : List Char) : lastOk (pyLower l) = lastOk l := by
  induction l with
  | nil => rfl
  | cons c rest ih =>
    cases rest with
    | nil => simp [pyLower, lastOk, isPySpace_toLower]
    | cons d rest' =>
      have h1 : pyLower (c :: d :: rest') = Char.toLower c :: pyLower (d :: rest') := rfl
      rw [h1, lastOk_cons_of_ne (by simp [pyLower]), lastOk_cons_of_ne (by simp)]
      exact ih

theorem noDoubleWs_pyLower (l : List Char) : noDoubleWs (pyLower l) = noDoubleWs l := by
  induction l with
  | nil => rfl
  | cons c rest ih =>
    cases rest with
    | nil => rfl
    | cons d rest' =>
      have h1 : pyLower (c :: d :: rest') = Char.toLower c :: Char.toLower d :: pyLower rest' := rfl
      have h2 : pyLower (d :: rest') = Char.toLower d :: pyLower rest' := rfl
      rw [h1]
      simp only [noDoubleWs, isPySpace_toLower]
      rw [← h2, ih]

theorem allWsSpace_pyLower {l : List Char} (h : allWsSpace l = true) :
    allWsSpace (pyLower l) = true := by
  induction l with
  | nil => rfl
  | cons c rest ih =>
    simp only [allWsSpace, pyLower, List.map_cons, List.all_cons, Bool.and_eq_true] at h ⊢
    refine ⟨?_, ih h.2⟩
    have h1 := h.1
    simp only [Bool.or_eq_true, Bool.not_eq_true', decide_eq_true_eq] at h1 ⊢
    rcases h1 with h1 | h1
    · left; rw [isPySpace_toLower]; exact h1
    · right
      rw [h1]
      decide
  
theorem pyLower_idem (l : List Char) : pyLower (pyLower l) = pyLower l := by
  simp only [pyLower, List.map_map]
  have hcomp : Char.toLower ∘ Char.toLower = Char.toLower := by
    funext d
    exact toLower_idem d
  rw [hcomp]

theorem noAsciiUpper_pyLower (l : List Char) : noAsciiUpper (pyLower l) = true := by
  induction l with
  | nil => rfl
  | cons c rest ih =>
    simp only [noAsciiUpper, pyLower, List.map_cons, List.all_cons, Bool.and_eq_true] at ih ⊢
    refine ⟨?_, ih⟩
    have := noUpper_toLower c
    simp only [Bool.not_eq_true', Bool.and_eq_false_iff, decide_eq_false_iff_not]
    omega

-- pyStrip lemmas

theorem headOk_dropWhile (l : List Char) : headOk (l.dropWhile isPySpace) = true := by
  induction l with
  | nil => rfl
  | cons c rest ih =>
    by_cases hc : isPySpace c
    · rw [List.dropWhile_cons_of_pos hc]
      exact ih
    · rw [List.dropWhile_cons_of_neg hc]
      simpa [headOk] using hc

theorem headOk_of_front {m n : List Char} (hp : m <+: n) (h : headOk n = true) :
    headOk m = true := by
  cases m with
  | nil => rfl
  | cons c m' =>
    cases n with
    | nil => exact absurd (List.prefix_nil.mp hp) (by simp)
    | cons d n' =>
      rcases hp with ⟨t, ht⟩
      simp only [List.cons_append, List.cons.injEq] at ht
      have hcd : d = c := ht.1.symm
      subst hcd
      simpa [headOk] using h

theorem headOk_reverse (m : List Char) : headOk m.reverse = lastOk m := by
  induction m with
  | nil => rfl
  | cons c rest ih =>
    cases hr : rest with
    | nil => simp [headOk, lastOk]
    | cons d rest' =>
      subst hr
      rw [lastOk_cons_of_ne (by simp), ← ih, List.reverse_cons]
      have hne : (d :: rest').reverse ≠ [] := by simp
      cases hh : (d :: rest').reverse with
      | nil => exact absurd hh hne
      | cons e t => simp [headOk]

theorem pyStrip_part (l : List Char) : pyStrip l <:+: l := by
  unfold pyStrip
  have h1 : (l.dropWhile isPySpace) <:+ l := List.dropWhile_suffix _
  have h2 : ((l.dropWhile isPySpace).reverse.dropWhile isPySpace) <:+
      (l.dropWhile isPySpace).reverse := List.dropWhile_suffix _
  have h3 : ((l.dropWhile isPySpace).reverse.dropWhile isPySpace).reverse <+:
      (l.dropWhile isPySpace).reverse.reverse := List.reverse_prefix.mpr h2
  rw [List.reverse_reverse] at h3
  exact h3.isInfix.trans h1.isInfix

theorem headOk_pyStrip (l : List Char) : headOk (pyStrip l) = true := by
  unfold pyStrip
  have h2 : ((l.dropWhile isPySpace).reverse.dropWhile isPySpace) <:+
      (l.dropWhile isPySpace).reverse := List.dropWhile_suffix _
  have h3 : ((l.dropWhile isPySpace).reverse.dropWhile isPySpace).reverse <+:
      (l.dropWhile isPySpace).reverse.reverse := List.reverse_prefix.mpr h2
  rw [List.reverse_reverse] at h3
  exact headOk_of_front h3 (headOk_dropWhile l)

theorem lastOk_pyStrip (l : List Char) : lastOk (pyStrip l) = true := by
  unfold pyStrip
  rw [← headOk_reverse, List.reverse_reverse]
  exact headOk_dropWhile _

theorem dropWhile_eq_self_of_headOk {l : List Char} (h : headOk l = true) :
    l.dropWhile isPySpace = l := by
  cases l with
  | nil => rfl
  | cons c rest =>
    simp only [headOk, Bool.not_eq_true'] at h
    rw [List.dropWhile_cons_of_neg (by rw [h]; simp)]

theorem pyStrip_eq_self {l : List Char} (hh : headOk l = true) (hl : lastOk l = true) :
    pyStrip l = l := by
  unfold pyStrip
  rw [dropWhile_eq_self_of_headOk hh]
  rw [dropWhile_eq_self_of_headOk (by rw [headOk_reverse]; exact hl)]
  exact List.reverse_reverse l

-- assembly for normalize_text

theorem normalize_text_universal (x : List Char) :
    noDoubleWs (normalize_text x) = true ∧
    allWsSpace (normalize_text x) = true ∧
    noAsciiUpper (normalize_text x) = true := by
  unfold normalize_text
  refine ⟨?_, ?_, ?_⟩
  · rw [noDoubleWs_pyLower]
    exact noDoubleWs_collapseWs _
  · exact allWsSpace_pyLower (allWsSpace_collapseWs _)
  · exact noAsciiUpper_pyLower _

theorem normalize_text_no_scheme (x : List Char) (hx : containsSchemeCI x = false) :
    normalize_text (normalize_text x) = normalize_text x ∧
    containsUrl (normalize_text x) = false ∧
    noEdgeWs (normalize_text x) = true := by
  have hstrip : containsSchemeCI (pyStrip x) = false := CS_part (pyStrip_part x) hx
  have hrm : removeUrls (pyStrip x) = pyStrip x := removeUrls_id hstrip
  have hnx : normalize_text x = pyLower (collapseWs (pyStrip x)) := by
    unfold normalize_text
    rw [hrm]
  have hyCS : containsSchemeCI (collapseWs (pyStrip x)) = false := CS_collapse hstrip
  have hzCS : containsSchemeCI (normalize_text x) = false := by
    rw [hnx, CS_pyLower]
    exact hyCS
  have hhead : headOk (normalize_text x) = true := by
    rw [hnx, headOk_pyLower, headOk_collapseWs]
    exact headOk_pyStrip x
  have hlast : lastOk (normalize_text x) = true := by
    rw [hnx, lastOk_pyLower]
    exact lastOk_collapseWs (lastOk_pyStrip x)
  refine ⟨?_, ?_, ?_⟩
  · have hstrip2 : pyStrip (normalize_text x) = normalize_text x :=
      pyStrip_eq_self hhead hlast
    have hrm2 : removeUrls (normalize_text x) = normalize_text x := removeUrls_id hzCS
    have hdw : noDoubleWs (normalize_text x) = true := (normalize_text_universal x).1
    have hws : allWsSpace (normalize_text x) = true := (normalize_text_universal x).2.1
    have hcol2 : collapseWs (normalize_text x) = normalize_text x := collapseWs_id hdw hws
    have hlow2 : pyLower (normalize_text x) = normalize_text x := by
      rw [hnx]
      exact pyLower_idem _
    show normalize_text (normalize_text x) = normalize_text x
    unfold normalize_text
    rw [show pyStrip (pyLower (collapseWs (removeUrls (pyStrip x)))) = pyStrip (normalize_text x) from rfl]
    rw [hstrip2]
    rw [show removeUrls (normalize_text x) = normalize_text x from hrm2]
    rw [show collapseWs (normalize_text x) = normalize_text x from hcol2]
    exact hlow2
  · cases hcu : containsUrl (normalize_text x) with
    | false => rfl
    | true =>
      rw [containsUrl_imp_CS hcu] at hzCS
      cases hzCS
  · simp only [noEdgeWs, hhead, hlast, Bool.and_self]

-- dict lemmas

theorem find?_map_overwrite (m : List (String × DiscEntry)) (k k' : String) (v : DiscEntry)
    (hne : k' ≠ k) :
    (m.map (fun kv => if kv.1 = k then (k, v) else kv)).find? (fun kv => kv.1 = k') =
      m.find? (fun kv => kv.1 = k') := by
  induction m with
  | nil => rfl
  | cons kv m' ih =>
    by_cases hh : kv.1 = k
    · simp only [List.map_cons, if_pos hh]
      rw [List.find?_cons_of_neg _ (by simp only [decide_eq_true_eq]; exact fun h => hne h.symm),
          List.find?_cons_of_neg _ (by
            simp only [decide_eq_true_eq]
            intro hkk
            exact hne (hh ▸ hkk).symm)]
      exact ih
    · simp only [List.map_cons, if_neg hh]
      by_cases hp : kv.1 = k'
      · rw [List.find?_cons_of_pos _ (by simp [hp]), List.find?_cons_of_pos _ (by simp [hp])]
      · rw [List.find?_cons_of_neg _ (by simp [hp]), List.find?_cons_of_neg _ (by simp [hp])]
        exact ih

theorem dictLookup_insert_self (m : List (String × DiscEntry)) (k : String) (v : DiscEntry) :
    dictLookup (dictInsert m k v) k = some v := by
  induction m with
  | nil => simp [dictInsert, dictLookup]
  | cons kv m' ih =>
    by_cases hany : ((kv :: m').any fun kv => kv.1 = k) = true
    · rw [dictInsert, if_pos hany]
      by_cases hh : kv.1 = k
      · simp only [List.map_cons, if_pos hh]
        simp [dictLookup]
      · simp only [List.map_cons, if_neg hh]
        rw [dictLookup, List.find?_cons_of_neg _ (by simpa using hh)]
        have hany' : (m'.any fun kv => kv.1 = k) = true := by
          simp only [List.any_cons, Bool.or_eq_true] at hany
          rcases hany with h | h
          · exact absurd (by simpa using h) hh
          · exact h
        have h2 := ih
        rw [dictInsert, if_pos hany', dictLookup] at h2
        exact h2
    · rw [dictInsert, if_neg hany, dictLookup, List.find?_append]
      have hnone : ((kv :: m').find? fun kv => kv.1 = k) = none := by
        rw [List.find?_eq_none]
        intro x hx
        simp only [List.any_eq_true, not_exists] at hany
        intro hpx
        exact hany x ⟨hx, hpx⟩
      rw [hnone]
      simp

theorem dictLookup_insert_other (m : List (String × DiscEntry)) {k k' : String}
    (v : DiscEntry) (hne : k' ≠ k) :
    dictLookup (dictInsert m k v) k' = dictLookup m k' := by
  rw [dictInsert]
  split
  · rw [dictLookup, dictLookup, find?_map_overwrite m k k' v hne]
  · rw [dictLookup, dictLookup, List.find?_append]
    have : (([(k, v)] : List (String × DiscEntry)).find? fun kv => kv.1 = k') = none := by
      rw [List.find?_eq_none]
      intro x hx
      simp only [List.mem_singleton] at hx
      subst hx
      simp only [decide_eq_true_eq]
      exact fun h => hne h.symm
    rw [this]
    simp

def lastWith : List DiscEntry → String → Option DiscEntry
  | [], _ => none
  | e :: rest, k =>
    match lastWith rest k with
    | some e' => some e'
    | none => if e.channel_id = k then some e else none

theorem lastWith_of_filter_singleton {l : List DiscEntry} {k : String} {e : DiscEntry}
    (h : l.filter (fun x => x.channel_id = k) = [e]) : lastWith l k = some e := by
  induction l with
  | nil => simp at h
  | cons x l' ih =>
    by_cases hx : x.channel_id = k
    · rw [List.filter_cons_of_pos (by simpa using hx)] at h
      simp only [List.cons.injEq] at h
      have hl' : lastWith l' k = none := by
        cases ht : lastWith l' k with
        | none => rfl
        | some e' =>
          exfalso
          have hmem : e' ∈ l'.filter (fun x => x.channel_id = k) := by
            clear h ih
            induction l' with
            | nil => simp [lastWith] at ht
            | cons y l'' ih2 =>
              rw [lastWith] at ht
              cases hy : lastWith l'' k with
              | some e'' =>
                rw [hy] at ht
                cases ht
                have := ih2 hy
                rcases List.mem_filter.mp this with ⟨hm, hp⟩
                exact List.mem_filter.mpr ⟨List.mem_cons_of_mem _ hm, hp⟩
              | none =>
                rw [hy] at ht
                by_cases hyk : y.channel_id = k
                · rw [if_pos hyk] at ht
                  cases ht
                  exact List.mem_filter.mpr ⟨List.mem_cons_self _ _, by simpa using hyk⟩
                · rw [if_neg hyk] at ht
                  cases ht
          rw [h.2] at hmem
          simp at hmem
      rw [lastWith, hl', if_pos hx, h.1]
    · rw [List.filter_cons_of_neg (by simpa using hx)] at h
      rw [lastWith, ih h]

def foldStepA (m : List (String × DiscEntry)) (item : DiscEntry) : List (String × DiscEntry) :=
  dictInsert m item.channel_id item

def foldStepB (m : List (String × DiscEntry)) (item : DiscEntry) : List (String × DiscEntry) :=
  match dictLookup m item.channel_id with
  | none => dictInsert m item.channel_id item
  | some prev => if item.score > prev.score then dictInsert m item.channel_id item else m

theorem lookup_foldA (l : List DiscEntry) (m : List (String × DiscEntry)) (k : String) :
    dictLookup (l.foldl foldStepA m) k =
      match lastWith l k with
      | some e => some e
      | none => dictLookup m k := by
  induction l generalizing m with
  | nil => rfl
  | cons item l' ih =>
    rw [List.foldl_cons, ih]
    cases hw : lastWith l' k with
    | some e => rw [lastWith, hw]
    | none =>
      rw [lastWith, hw]
      by_cases hik : item.channel_id = k
      · rw [if_pos hik, foldStepA, hik, dictLookup_insert_self]
      · rw [if_neg hik, foldStepA, dictLookup_insert_other _ _ (fun h => hik h.symm)]

theorem lookup_foldB_nomatch (l : List DiscEntry) (m : List (String × DiscEntry)) (k : String)
    (h : ∀ e ∈ l, e.channel_id ≠ k) :
    dictLookup (l.foldl foldStepB m) k = dictLookup m k := by
  induction l generalizing m with
  | nil => rfl
  | cons item l' ih =>
    rw [List.foldl_cons, ih _ (fun e he => h e (List.mem_cons_of_mem _ he))]
    have hik : item.channel_id ≠ k := h item (List.mem_cons_self _ _)
    rw [foldStepB]
    cases dictLookup m item.channel_id with
    | none => exact dictLookup_insert_other _ _ (fun hx => hik hx.symm)
    | some prev =>
      dsimp only
      split
      · exact dictLookup_insert_other _ _ (fun hx => hik hx.symm)
      · rfl

theorem lookup_foldB (l : List DiscEntry) (m : List (String × DiscEntry)) (k : String)
    (cur eb : DiscEntry) (hcur : dictLookup m k = some cur)
    (hl : l.filter (fun e => e.channel_id = k) = [eb]) :
    dictLookup (l.foldl foldStepB m) k = some (if eb.score > cur.score then eb else cur) := by
  induction l generalizing m cur with
  | nil => simp at hl
  | cons item l' ih =>
    by_cases hik : item.channel_id = k
    · rw [List.filter_cons_of_pos (by simpa using hik)] at hl
      simp only [List.cons.injEq] at hl
      have hl' : ∀ e ∈ l', e.channel_id ≠ k := by
        intro e he hek
        have : e ∈ l'.filter (fun e => e.channel_id = k) := by
          exact List.mem_filter.mpr ⟨he, by simpa using hek⟩
        rw [hl.2] at this
        simp at this
      rw [List.foldl_cons, lookup_foldB_nomatch l' _ k hl']
      rw [foldStepB, hik, hcur]
      obtain ⟨hitem, _⟩ := hl
      subst hitem
      dsimp only
      split
      · rw [dictLookup_insert_self]
      · exact hcur
    · rw [List.filter_cons_of_neg (by simpa using hik)] at hl
      rw [List.foldl_cons]
      have hstep : dictLookup (foldStepB m item) k = some cur := by
        rw [foldStepB]
        cases dictLookup m item.channel_id with
        | none => rw [dictLookup_insert_other _ _ (fun hx => hik hx.symm)]; exact hcur
        | some prev =>
          dsimp only
          split
          · rw [dictLookup_insert_other _ _ (fun hx => hik hx.symm)]; exact hcur
          · exact hcur
      exact ih _ _ hstep hl

theorem mergeCandidates_lookup (a b : List DiscEntry) (k : String) (ea eb : DiscEntry)
    (ha : a.filter (fun e => e.channel_id = k) = [ea])
    (hb : b.filter (fun e => e.channel_id = k) = [eb]) :
    dictLookup (mergeCandidates a b) k = some (if eb.score > ea.score then eb else ea) := by
  have hA : dictLookup (a.foldl foldStepA []) k = some ea := by
    rw [lookup_foldA, lastWith_of_filter_singleton ha]
  rw [mergeCandidates]
  exact lookup_foldB b _ k ea eb hA hb

theorem discover_reddit_ranked_props (a b : List DiscEntry) :
    (discover_reddit_ranked a b).Sorted scoreGE ∧
    (discover_reddit_ranked a b).length ≤ 20 ∧
    (∀ e ∈ discover_reddit_ranked a b, e ∈ (mergeCandidates a b).map Prod.snd) := by
  refine ⟨?_, ?_, ?_⟩
  · have hs := List.sorted_insertionSort scoreGE ((mergeCandidates a b).map Prod.snd)
    exact List.Pairwise.sublist (List.take_sublist _ _) hs
  · rw [discover_reddit_ranked]
    exact List.length_take_le _ _
  · intro e he
    have h1 : e ∈ ((mergeCandidates a b).map Prod.snd).insertionSort scoreGE :=
      (List.take_sublist _ _).mem he
    exact (List.mem_insertionSort scoreGE).mp h1

theorem dedupeCap_eq_take (l : List String) : ∀ (seen : List String) (n : Nat), n < 20 →
    dedupeCap l seen n = (dedupeSeen seen l).take (20 - n) := by
  induction l with
  | nil => intro seen n _; simp [dedupeCap, dedupeSeen]
  | cons q rest ih =>
    intro seen n hn
    by_cases hq : q ∈ seen
    · rw [dedupeCap, if_pos hq, dedupeSeen, if_pos hq]
      exact ih seen n hn
    · rw [dedupeCap, if_neg hq, dedupeSeen, if_neg hq]
      by_cases hcap : n + 1 ≥ 20
      · rw [if_pos hcap]
        have : 20 - n = 1 := by omega
        rw [this, List.take_succ_cons, List.take_zero]
      · rw [if_neg hcap]
        have h2 : 20 - n = (20 - (n + 1)) + 1 := by omega
        rw [h2, List.take_succ_cons, ih (q :: seen) (n + 1) (by omega)]

theorem dedupeSeen_sublist (l : List String) : ∀ seen, List.Sublist (dedupeSeen seen l) l := by
  induction l with
  | nil => intro seen; exact List.Sublist.refl _
  | cons q rest ih =>
    intro seen
    rw [dedupeSeen]
    by_cases hq : q ∈ seen
    · rw [if_pos hq]
      exact (ih seen).trans (List.sublist_cons_self _ _)
    · rw [if_neg hq]
      exact List.Sublist.cons₂ _ (ih (q :: seen))

theorem dedupeSeen_nodup (l : List String) : ∀ seen,
    (dedupeSeen seen l).Nodup ∧ ∀ q ∈ dedupeSeen seen l, q ∉ seen := by
  induction l with
  | nil => intro seen; exact ⟨List.nodup_nil, by simp [dedupeSeen]⟩
  | cons q rest ih =>
    intro seen
    rw [dedupeSeen]
    by_cases hq : q ∈ seen
    · rw [if_pos hq]
      exact ih seen
    · rw [if_neg hq]
      obtain ⟨hnd, hmem⟩ := ih (q :: seen)
      constructor
      · rw [List.nodup_cons]
        refine ⟨fun hc => ?_, hnd⟩
        exact hmem q hc (List.mem_cons_self _ _)
      · intro x hx hxs
        rcases List.mem_cons.mp hx with h | h
        · subst h; exact hq hxs
        · exact hmem x h (List.mem_cons_of_mem _ hxs)

theorem upsert_noop (platform : String) (s : IngestSession) (c : CommentInput)
    (content : ContentRow) (product : String)
    (h : s.flushed.comments.any
      (fun row => row.platform = platform && row.comment_id = c.id) = true) :
    upsert_comment_ing platform s c content product = s := by
  rw [upsert_comment_ing, if_pos h]

theorem flush_preserves_nodup (pending : List CommentRow) :
    ∀ (db db' : List CommentRow), (commentKeys db).Nodup →
    flushComments db pending = .ok db' → (commentKeys db').Nodup := by
  induction pending with
  | nil =>
    intro db db' hnd h
    rw [flushComments] at h
    cases h
    exact hnd
  | cons r rest ih =>
    intro db db' hnd h
    rw [flushComments] at h
    by_cases hany : db.any
        (fun row => row.platform = r.platform && row.comment_id = r.comment_id) = true
    · rw [if_pos hany] at h
      cases h
    · rw [if_neg hany] at h
      refine ih (db ++ [r]) db' ?_ h
      rw [commentKeys, List.map_append]
      rw [List.nodup_append]
      refine ⟨hnd, List.nodup_singleton _, ?_⟩
      intro x hx
      simp only [List.map_singleton, List.mem_singleton]
      intro hxr
      subst hxr
      rcases List.mem_map.mp hx with ⟨row, hrow, hkey⟩
      apply hany
      rw [List.any_eq_true]
      refine ⟨row, hrow, ?_⟩
      have h1 : row.platform = r.platform := congrArg Prod.fst hkey
      have h2 : row.comment_id = r.comment_id := congrArg Prod.snd hkey
      simp [h1, h2]

theorem foldl_upsert_noop (platform : String) (content : ContentRow) (product : String)
    (cs : List CommentInput) :
    ∀ (s : IngestSession),
    (∀ c ∈ cs, s.flushed.comments.any
      (fun row => row.platform = platform && row.comment_id = c.id) = true) →
    cs.foldl (fun st c => upsert_comment_ing platform st c content product) s = s := by
  induction cs with
  | nil => intro s _; rfl
  | cons c cs' ih =>
    intro s hall
    rw [List.foldl_cons, upsert_noop platform s c content product
      (hall c (List.mem_cons_self _ _))]
    exact ih s (fun c' hc' => hall c' (List.mem_cons_of_mem _ hc'))

theorem ingest_product_noop (platform : String) (s : IngestSession) (sub : Submission)
    (product : String) (content : ContentRow)
    (hc : s.flushed.contents.find?
      (fun row => row.platform = platform && row.item_id = sub.id) = some content)
    (hall : ∀ c ∈ sub.comments, s.flushed.comments.any
      (fun row => row.platform = platform && row.comment_id = c.id) = true) :
    ingest_product platform s [sub] product = .ok s := by
  rw [ingest_product, get_or_create_content, hc]
  simp only []
  rw [foldl_upsert_noop platform content product sub.comments s hall]
  rfl

theorem sessionCommit_start (committed : IngestStore) :
    sessionCommit (sessionStart committed) = .ok committed := by
  rw [sessionCommit, sessionStart, flushComments]

theorem retry3_error_iff {α : Type} (f : Nat → Except String α) (e : String) :
    retry3 f = .error e ↔
      (∃ e0 e1, f 0 = .error e0 ∧ f 1 = .error e1 ∧ f 2 = .error e) := by
  constructor
  · intro h
    rw [retry3] at h
    cases h0 : f 0 with
    | ok v => rw [h0] at h; cases h
    | error e0 =>
      rw [h0] at h
      cases h1 : f 1 with
      | ok v => rw [h1] at h; cases h
      | error e1 =>
        rw [h1] at h
        exact ⟨e0, e1, rfl, rfl, h⟩
  · rintro ⟨e0, e1, h0, h1, h2⟩
    rw [retry3, h0, h1]
    exact h2

theorem ingest_source_products_error (platform : String)
    (fetch : String → Nat → Except String (List Submission))
    (pre : List String) (p : String) (post : List String) (e : String) :
    ∀ (s0 s1 : IngestSession),
    ingest_source_products platform fetch pre s0 = .ok s1 →
    retry3 (fetch p) = .error e →
    ingest_source_products platform fetch (pre ++ p :: post) s0 = .error e := by
  induction pre with
  | nil =>
    intro s0 s1 hpre hp
    rw [List.nil_append, ingest_source_products, hp]
  | cons q pre' ih =>
    intro s0 s1 hpre hp
    rw [ingest_source_products] at hpre
    rw [List.cons_append, ingest_source_products]
    cases hq : retry3 (fetch q) with
    | error eq =>
      simp only [hq] at hpre
      exact absurd hpre (by simp)
    | ok subs =>
      simp only [hq] at hpre ⊢
      cases hi : ingest_product platform s0 subs q with
      | error ei =>
        simp only [hi] at hpre
        exact absurd hpre (by simp)
      | ok sq =>
        simp only [hi] at hpre ⊢
        exact ih sq s1 hpre hp

theorem run_once_reddit_abort
    (redditFetch youtubeFetch : String → Nat → Except String (List Submission))
    (products : List String) (committed : IngestStore) (e : String)
    (h : ingest_source_products "reddit" redditFetch products
      (sessionStart committed) = .error e) :
    run_once redditFetch youtubeFetch products committed = .error e ∧
    run_once_final redditFetch youtubeFetch products committed = committed := by
  have h2 : ingest_source "reddit" redditFetch products committed = .error e := by
    rw [ingest_source, h]
  exact ⟨by rw [run_once, h2], by rw [run_once_final, h2]⟩

theorem run_once_youtube_abort
    (redditFetch youtubeFetch : String → Nat → Except String (List Submission))
    (products : List String) (committed st1 : IngestStore) (e : String)
    (hok : ingest_source "reddit" redditFetch products committed = .ok st1)
    (hy : ingest_source_products "youtube" youtubeFetch products
      (sessionStart st1) = .error e) :
    run_once_final redditFetch youtubeFetch products committed = st1 := by
  have h2 : ingest_source "youtube" youtubeFetch products st1 = .error e := by
    rw [ingest_source, hy]
  rw [run_once_final]
  simp only [hok, h2]

theorem run_pending_rollback (upsert : Option String → List Rat → WMeta → Except String String)
    (sentiments : List SentimentResult) (embeddings : List (List Rat))
    (store : List CommentRow) (comment_ids : Option (List Nat)) (e : String)
    (h : classifyLoop upsert
      ((load_comments store comment_ids).zip (sentiments.zip embeddings)) = .error e) :
    run_pending upsert sentiments embeddings store comment_ids = .error e ∧
    run_pending_final upsert sentiments embeddings store comment_ids = store ∧
    load_comments (run_pending_final upsert sentiments embeddings store comment_ids)
      comment_ids = load_comments store comment_ids := by
  have hne : (load_comments store comment_ids).isEmpty = false := by
    cases hc : (load_comments store comment_ids).isEmpty with
    | false => rfl
    | true =>
      exfalso
      rw [List.isEmpty_iff] at hc
      rw [hc] at h
      simp only [List.zip_nil_left] at h
      cases h
  have h1 : run_pending upsert sentiments embeddings store comment_ids = .error e := by
    rw [run_pending]
    simp only [hne, Bool.false_eq_true, if_false]
    rw [h]
  refine ⟨h1, ?_, ?_⟩
  · rw [run_pending_final, h1]
  · rw [run_pending_final, h1]

-- ===== Claim theorems =====

/-- C1 (corrected). The claim says a mid-batch vector-upsert failure leaves the
earlier comments' relational mutations committed. In the code the whole batch
runs in one `get_session` scope, which rolls back on any exception, so the
amended property holds instead: if the upsert fails partway, the run raises,
NO comment's mutations are committed (earlier ones included), and every
comment of the batch — the failing one and the earlier ones alike — remains
selectable via processed = false on the next invocation. -/
theorem C1_rollback_on_upsert_failure
    (upsert : Option String → List Rat → WMeta → Except String String)
    (sentiments : List SentimentResult) (embeddings : List (List Rat))
    (store : List CommentRow) (comment_ids : Option (List Nat)) (e : String)
    (h : classifyLoop upsert
      ((load_comments store comment_ids).zip (sentiments.zip embeddings)) = .error e) :
    run_pending upsert sentiments embeddings store comment_ids = .error e ∧
    run_pending_final upsert sentiments embeddings store comment_ids = store ∧
    load_comments (run_pending_final upsert sentiments embeddings store comment_ids)
      comment_ids = load_comments store comment_ids :=
  run_pending_rollback upsert sentiments embeddings store comment_ids e h

/-- C1 witness: a two-comment batch whose second upsert fails; the hypotheses
are discharged by computation and the rolled-back store is observed. -/
theorem C1_rollback_on_upsert_failure_witness :
    classifyLoop upsertCex ((load_comments storeCex none).zip (sentsCex.zip embsCex)) =
      .error "weaviate down" ∧
    run_pending_final upsertCex sentsCex embsCex storeCex none = storeCex :=
  ⟨by decide, (C1_rollback_on_upsert_failure upsertCex sentsCex embsCex storeCex none
    "weaviate down" (by decide)).2.1⟩

/-- C1 counterexample: with two unprocessed comments and the vector upsert
failing on the second, the claim predicts the first comment's mutations stay
committed and it is not selected next time. Instead the store is unchanged,
both comments (ids 1 and 2) are selected on the next invocation, and every
row is still unmutated (processed = false, sentiment = none). -/
theorem C1_rollback_on_upsert_failure_cex :
    run_pending_final upsertCex sentsCex embsCex storeCex none = storeCex ∧
    (load_comments (run_pending_final upsertCex sentsCex embsCex storeCex none) none).map
      (fun c => c.id) = [1, 2] ∧
    (run_pending_final upsertCex sentsCex embsCex storeCex none).all
      (fun c => c.processed = false && c.sentiment = none) = true :=
  ⟨by decide, by decide, by decide⟩

/-- C2 (corrected). First-write-wins holds whenever the first-written row is
visible to the read-then-insert SELECT (committed, or flushed earlier in the
run): the repeated upsert is exactly the identity (no second row, no field of
the first row altered), the unique constraint keeps any committed store free
of duplicate (platform, comment_id) pairs through every successful flush, and
re-running ingestion over an already-ingested submission returns the
committed store unchanged. (The same-run-before-flush case is the
counterexample: there the repeated ingestion is NOT a silent no-op.) -/
theorem C2_first_write_wins :
    (∀ (platform product : String) (s : IngestSession) (c : CommentInput)
      (content : ContentRow),
      s.flushed.comments.any
        (fun row => row.platform = platform && row.comment_id = c.id) = true →
      upsert_comment_ing platform s c content product = s) ∧
    (∀ (pending db db' : List CommentRow), (commentKeys db).Nodup →
      flushComments db pending = .ok db' → (commentKeys db').Nodup) ∧
    (∀ (platform product : String) (committed : IngestStore) (sub : Submission)
      (content : ContentRow),
      committed.contents.find?
        (fun row => row.platform = platform && row.item_id = sub.id) = some content →
      (∀ c ∈ sub.comments, committed.comments.any
        (fun row => row.platform = platform && row.comment_id = c.id) = true) →
      ingest_product platform (sessionStart committed) [sub] product =
        .ok (sessionStart committed) ∧
      sessionCommit (sessionStart committed) = .ok committed) :=
  ⟨fun platform product s c content h => upsert_noop platform s c content product h,
   fun pending db db' hnd h => flush_preserves_nodup pending db db' hnd h,
   fun platform product committed sub content hc hall =>
     ⟨ingest_product_noop platform (sessionStart committed) sub product content hc hall,
      sessionCommit_start committed⟩⟩

/-- C2 counterexample: the same submission (and so the same comment id)
observed twice in one run — e.g. a duplicated API page. The second
observation is not a silent no-op: the pending-row check does not see the
first unflushed row, a second pending row is created, and the commit fails on
the unique constraint, rolling back the whole run. -/
theorem C2_first_write_wins_cex :
    ingest_source "reddit" fetchDup ["pixel"] emptyIngestStore =
      .error "IntegrityError: uq_platform_comment" ∧
    (ingest_source_products "reddit" fetchDup ["pixel"]
      (sessionStart emptyIngestStore)).map (fun s => s.pendingComments.length) = .ok 2 ∧
    run_once_final fetchDup (fun _ _ => .ok []) ["pixel"] emptyIngestStore =
      emptyIngestStore :=
  ⟨by decide, by decide, by decide⟩

/-- C3 (corrected). Retry exhaustion (all 3 attempts failing) for one
product's fetch does NOT leave the other products and the other source
untouched: the exception propagates out of the per-source session (which
rolls back), so later products of that source are skipped, the source's
partial work is discarded, and — when the failing source is Reddit — YouTube
ingestion never runs. A YouTube failure likewise aborts the remaining
YouTube work while Reddit's already-committed rows persist. -/
theorem C3_retry_exhaustion_aborts_run :
    (∀ (A : Type) (f : Nat → Except String A) (e : String),
      retry3 f = .error e ↔
        (∃ e0 e1, f 0 = .error e0 ∧ f 1 = .error e1 ∧ f 2 = .error e)) ∧
    (∀ (platform : String) (fetch : String → Nat → Except String (List Submission))
      (pre : List String) (p : String) (post : List String) (e : String)
      (s0 s1 : IngestSession),
      ingest_source_products platform fetch pre s0 = .ok s1 →
      retry3 (fetch p) = .error e →
      ingest_source_products platform fetch (pre ++ p :: post) s0 = .error e) ∧
    (∀ (redditFetch youtubeFetch : String → Nat → Except String (List Submission))
      (products : List String) (committed : IngestStore) (e : String),
      ingest_source_products "reddit" redditFetch products (sessionStart committed) =
        .error e →
      run_once redditFetch youtubeFetch products committed = .error e ∧
      run_once_final redditFetch youtubeFetch products committed = committed) ∧
    (∀ (redditFetch youtubeFetch : String → Nat → Except String (List Submission))
      (products : List String) (committed st1 : IngestStore) (e : String),
      ingest_source "reddit" redditFetch products committed = .ok st1 →
      ingest_source_products "youtube" youtubeFetch products (sessionStart st1) =
        .error e →
      run_once_final redditFetch youtubeFetch products committed = st1) :=
  ⟨fun A f e => retry3_error_iff f e,
   fun platform fetch pre p post e s0 s1 h1 h2 =>
     ingest_source_products_error platform fetch pre p post e s0 s1 h1 h2,
   fun rf yf products committed e h => run_once_reddit_abort rf yf products committed e h,
   fun rf yf products committed st1 e h1 h2 =>
     run_once_youtube_abort rf yf products committed st1 e h1 h2⟩

/-- C3 counterexample: products [alpha, beta]; alpha's Reddit fetch fails on
every attempt, beta's succeeds, and YouTube would succeed for both. The claim
predicts beta is still ingested for Reddit and YouTube runs for all products;
instead the whole run aborts with alpha's error and the store is unchanged —
while beta alone, or YouTube alone, would have ingested rows. -/
theorem C3_retry_exhaustion_aborts_run_cex :
    run_once redditFetchCex youtubeFetchCex ["alpha", "beta"] emptyIngestStore =
      .error "reddit 503" ∧
    run_once_final redditFetchCex youtubeFetchCex ["alpha", "beta"] emptyIngestStore =
      emptyIngestStore ∧
    (ingest_source "reddit" redditFetchCex ["beta"] emptyIngestStore).map
      (fun st => st.comments.length) = .ok 1 ∧
    (ingest_source "youtube" youtubeFetchCex ["alpha", "beta"] emptyIngestStore).map
      (fun st => st.contents.length) = .ok 1 :=
  ⟨by decide, by decide, by decide, by decide⟩

/-- C4 (confirmed). In the merge of the two discovery candidate sets, a
channel key occurring once in each set keeps the entry with the strictly
higher score, an exact tie keeping the first-seen entry (the one from the
first candidate set); the ranked result is sorted descending by score
(`scoreGE`), holds at most 20 entries, and draws them from the merged dict. -/
theorem C4_discovery_merge (a b : List DiscEntry) (k : String) (ea eb : DiscEntry)
    (ha : a.filter (fun e => e.channel_id = k) = [ea])
    (hb : b.filter (fun e => e.channel_id = k) = [eb]) :
    dictLookup (mergeCandidates a b) k = some (if eb.score > ea.score then eb else ea) ∧
    (discover_reddit_ranked a b).Sorted scoreGE ∧
    (discover_reddit_ranked a b).length ≤ 20 ∧
    (∀ e ∈ discover_reddit_ranked a b, e ∈ (mergeCandidates a b).map Prod.snd) :=
  ⟨mergeCandidates_lookup a b k ea eb ha hb, (discover_reddit_ranked_props a b).1,
    (discover_reddit_ranked_props a b).2.1, (discover_reddit_ranked_props a b).2.2⟩

/-- C4 witness: concrete candidate sets with one key where strategy B scores
strictly higher (7 > 5, B's entry wins) and one exact tie (4 = 4, the
first-seen entry from strategy A is kept, not B's distinct same-score entry). -/
theorem C4_discovery_merge_witness :
    ([eaEx, eaEx2].filter (fun e => e.channel_id = "android") = [eaEx]) ∧
    ([ebEx, ebEx2].filter (fun e => e.channel_id = "android") = [ebEx]) ∧
    dictLookup (mergeCandidates [eaEx, eaEx2] [ebEx, ebEx2]) "android" =
      some (if ebEx.score > eaEx.score then ebEx else eaEx) ∧
    dictLookup (mergeCandidates [eaEx, eaEx2] [ebEx, ebEx2]) "android" = some ebEx ∧
    dictLookup (mergeCandidates [eaEx, eaEx2] [ebEx, ebEx2]) "pixel" = some eaEx2 ∧
    (discover_reddit_ranked [eaEx, eaEx2] [ebEx, ebEx2]) = [ebEx, eaEx2] := by
  refine ⟨by decide, by decide, ?_, by decide, by decide, by decide⟩
  exact (C4_discovery_merge [eaEx, eaEx2] [ebEx, ebEx2] "android" eaEx ebEx
    (by decide) (by decide)).1

/-- C5 (confirmed). For every analyzer and input batch, the fallback
classifier returns exactly one result per text in the same order; each result
is tagged fallback = true, has empty aspects, confidence = |compound|, and
its sentiment follows the fixed thresholds: compound ≥ 0.05 → positive,
compound ≤ -0.05 → negative, otherwise neutral. -/
theorem C5_fallback_classifier (scorer : String → Rat) (texts : List String) :
    (fallbackClassify scorer texts).length = texts.length ∧
    (∀ i (hi : i < texts.length),
      let r := (fallbackClassify scorer texts).get ⟨i, by
        rw [fallbackClassify, List.length_map]; exact hi⟩
      let compound := scorer (texts.get ⟨i, hi⟩)
      r.fallback = true ∧ r.aspects = [] ∧ r.confidence = |compound| ∧
      (compound ≥ mkRat 5 100 → r.sentiment = "positive") ∧
      (compound ≤ -(mkRat 5 100) → r.sentiment = "negative") ∧
      (-(mkRat 5 100) < compound → compound < mkRat 5 100 → r.sentiment = "neutral")) := by
  constructor
  · rw [fallbackClassify, List.length_map]
  · intro i hi
    simp only [fallbackClassify, List.get_eq_getElem, List.getElem_map]
    refine ⟨trivial, trivial, trivial, ?_, ?_, ?_⟩
    · intro h
      simp [h]
    · intro h
      have h2 : ¬ (scorer texts[i] ≥ mkRat 5 100) := by
        intro hc
        have : (mkRat 5 100 : Rat) ≤ -(mkRat 5 100) := le_trans hc h
        norm_num [mkRat] at this
      simp [h, h2]
    · intro h1 h2
      have hg : ¬ (scorer texts[i] ≥ mkRat 5 100) := by exact not_le.mpr h2
      have hl : ¬ (scorer texts[i] ≤ -(mkRat 5 100)) := by exact not_le.mpr h1
      simp [hg, hl]

/-- C5 witness: a concrete scorer under which "I love this phone" is
classified positive, with the inner index bound discharged by computation. -/
theorem C5_fallback_classifier_witness :
    ((mkRat 8 10 : Rat) ≥ mkRat 5 100) ∧
    (fallbackClassify cexScorer ["I love this phone", "I hate the battery", ""]).length = 3 ∧
    ((fallbackClassify cexScorer ["I love this phone", "I hate the battery", ""]).get
      ⟨0, by decide⟩).sentiment = "positive" := by
  refine ⟨by decide, (C5_fallback_classifier cexScorer _).1, ?_⟩
  have h := (C5_fallback_classifier cexScorer
    ["I love this phone", "I hate the battery", ""]).2 0 (by decide)
  exact h.2.2.2.1 (by decide)

/-- C6 (corrected). Universally, normalize_text output has single-space
separators (no two adjacent whitespace characters, and every whitespace
character is a space) and no uppercase ASCII letter. Idempotence, URL
stripping and absence of leading/trailing whitespace do NOT hold universally
(see the counterexample); they hold for every input with no case-insensitive
occurrence of the schemes http:// or https://. -/
theorem C6_normalize_text (x : List Char) :
    noDoubleWs (normalize_text x) = true ∧
    allWsSpace (normalize_text x) = true ∧
    noAsciiUpper (normalize_text x) = true ∧
    (containsSchemeCI x = false →
      normalize_text (normalize_text x) = normalize_text x ∧
      containsUrl (normalize_text x) = false ∧
      noEdgeWs (normalize_text x) = true) :=
  ⟨(normalize_text_universal x).1, (normalize_text_universal x).2.1,
    (normalize_text_universal x).2.2, fun hx => normalize_text_no_scheme x hx⟩

/-- C6 witness: a URL-free input with mixed case and ragged whitespace, on
which the conditional part of the theorem is discharged by computation. -/
theorem C6_normalize_text_witness :
    containsSchemeCI ("  Great  PHONE ".toList) = false ∧
    normalize_text (normalize_text ("  Great  PHONE ".toList)) =
      normalize_text ("  Great  PHONE ".toList) :=
  ⟨by decide, ((C6_normalize_text ("  Great  PHONE ".toList)).2.2.2 (by decide)).1⟩

/-- C6 counterexample: the source strips BEFORE removing URLs and its URL
regex is case-sensitive while lowercasing happens last. So for
"Visit https://a.io" the output is "visit " (trailing space; a second pass
removes it, refuting idempotence and no-trailing-whitespace), and for
"See HTTPS://EXAMPLE.COM now" the uppercase URL survives and is lowercased
into a URL in the output, refuting "the output contains no URL". -/
theorem C6_normalize_text_cex :
    (normalize_text (normalize_text ("Visit https://a.io".toList)) ≠
      normalize_text ("Visit https://a.io".toList)) ∧
    noEdgeWs (normalize_text ("Visit https://a.io".toList)) = false ∧
    containsUrl (normalize_text ("See HTTPS://EXAMPLE.COM now".toList)) = true :=
  ⟨by decide, by decide, by decide⟩

/-- C7 (confirmed). Parsing a sentiment payload succeeds exactly when the
required fields are present and well-formed — sentiment present and in
{positive, neutral, negative}, confidence present and parseable as a number —
and raises a parse error otherwise; a missing aspects field defaults to
empty, and any aspect key outside the fixed nine-item vocabulary is silently
filtered out of the result, never causing an error. -/
theorem C7_parse_sentiment (p : SentimentPayload) :
    ((parse_sentiment_payload p).isOk = true ↔
      (∃ s v, p.sentiment = some s ∧ p.confidence = ConfVal.num v ∧
        (s = "positive" ∨ s = "neutral" ∨ s = "negative"))) ∧
    (∀ r, parse_sentiment_payload p = .ok r →
      r.aspects = (p.aspects.getD []).filter (fun kv => kv.1 ∈ EXPECTED_ASPECTS)) := by
  obtain ⟨ps, pc, pa⟩ := p
  constructor
  · cases ps with
    | none => simp [parse_sentiment_payload, Except.isOk, Except.toBool]
    | some s =>
      cases pc with
      | missing => simp [parse_sentiment_payload, Except.isOk, Except.toBool]
      | unparseable => simp [parse_sentiment_payload, Except.isOk, Except.toBool]
      | num v =>
        by_cases hv : s = "positive" ∨ s = "neutral" ∨ s = "negative"
        · simp only [parse_sentiment_payload, if_pos hv, Except.isOk, Except.toBool]
          simp only [true_iff]
          exact ⟨s, v, rfl, rfl, hv⟩
        · simp only [parse_sentiment_payload, if_neg hv, Except.isOk, Except.toBool]
          constructor
          · intro h
            cases h
          · rintro ⟨s', v', hs', hv', hval⟩
            cases hs'
            exact absurd hval hv
  · intro r hr
    cases ps with
    | none => simp [parse_sentiment_payload] at hr
    | some s =>
      cases pc with
      | missing => simp [parse_sentiment_payload] at hr
      | unparseable => simp [parse_sentiment_payload] at hr
      | num v =>
        by_cases hv : s = "positive" ∨ s = "neutral" ∨ s = "negative"
        · simp only [parse_sentiment_payload, if_pos hv, Except.ok.injEq] at hr
          rw [← hr]
        · simp only [parse_sentiment_payload, if_neg hv] at hr
          cases hr

/-- C7 witness: a payload with one vocabulary aspect key and one unknown key;
parsing succeeds and the unknown key is dropped. -/
theorem C7_parse_sentiment_witness :
    (parse_sentiment_payload
      { sentiment := some "positive", confidence := ConfVal.num (mkRat 9 10),
        aspects := some [("battery", "positive"), ("unknown_key", "negative")] }).isOk = true ∧
    (∀ r, parse_sentiment_payload
      { sentiment := some "positive", confidence := ConfVal.num (mkRat 9 10),
        aspects := some [("battery", "positive"), ("unknown_key", "negative")] } = .ok r →
      r.aspects = [("battery", "positive")]) := by
  constructor
  · exact (C7_parse_sentiment _).1.mpr ⟨"positive", mkRat 9 10, rfl, rfl, Or.inl rfl⟩
  · intro r hr
    have h2 := (C7_parse_sentiment _).2 r hr
    rw [h2]
    decide

/-- C8 (confirmed). With no client (unconfigured endpoint or failed
initialization), upsert returns a usable identity without raising and
without any write — the supplied id when a non-empty one was given, the
"mock-uuid" placeholder otherwise — and nearest-neighbor search returns the
empty list without raising. -/
theorem C8_vector_gateway_degraded (uuid : Option String) (vector : List Rat)
    (metadata : List (String × String)) (qv : List Rat) (limit : Nat) :
    (upsert_comment none uuid vector metadata = .ok (pyOrStr uuid "mock-uuid")) ∧
    (∀ u, uuid = some u → u ≠ "" → upsert_comment none uuid vector metadata = .ok u) ∧
    (uuid = none → upsert_comment none uuid vector metadata = .ok "mock-uuid") ∧
    (semantic_search none qv limit = .ok []) := by
  refine ⟨rfl, ?_, ?_, rfl⟩
  · intro u hu hne
    subst hu
    simp [upsert_comment, pyOrStr, pyTruthyStr, hne]
  · intro hu
    subst hu
    rfl

/-- C8 witness: with a supplied id "u-42" and no client, upsert returns
exactly that id. -/
theorem C8_vector_gateway_degraded_witness :
    ((some "u-42" : Option String) = some "u-42") ∧
    upsert_comment none (some "u-42") [mkRat 1 2] [] = .ok "u-42" :=
  ⟨rfl, (C8_vector_gateway_degraded (some "u-42") [mkRat 1 2] [] [] 10).2.1 "u-42"
    rfl (by decide)⟩

/-- C9 (corrected). Both suggestion operations return at most 20 entries,
deduplicated, and return the empty list on provider failure; the query
suggestions do preserve first-seen order (the result is exactly the first-seen
dedup of the extracted candidates, capped at 20), but the subreddit
suggestions do NOT: they are ordered by descending product-token-overlap
score (Python sorted with reverse=True over the deduplicated set), not by
first appearance — see the counterexample. -/
theorem C9_suggestions (products : List String)
    (provider : Except Unit (Option (List JVal))) :
    (suggest_reddit_queries provider).length ≤ 20 ∧
    (suggest_subreddits products provider).length ≤ 20 ∧
    (suggest_reddit_queries provider).Nodup ∧
    (suggest_subreddits products provider).Nodup ∧
    (∀ e, provider = .error e →
      suggest_reddit_queries provider = [] ∧ suggest_subreddits products provider = []) ∧
    (∀ data, provider = .ok data →
      suggest_reddit_queries provider = (dedupeSeen [] (extractQueries data)).take 20) ∧
    (suggest_subreddits products provider).Sorted (overlapGE (toTokens products)) := by
  refine ⟨?_, ?_, ?_, ?_, ?_, ?_, ?_⟩
  · cases provider with
    | error e => simp [suggest_reddit_queries]
    | ok data =>
      rw [suggest_reddit_queries, dedupeCap_eq_take _ [] 0 (by omega)]
      exact le_trans (List.length_take_le _ _) (by omega)
  · cases provider with
    | error e => simp [suggest_subreddits]
    | ok data =>
      rw [suggest_subreddits]
      exact List.length_take_le _ _
  · cases provider with
    | error e => simp [suggest_reddit_queries]
    | ok data =>
      rw [suggest_reddit_queries, dedupeCap_eq_take _ [] 0 (by omega)]
      exact ((dedupeSeen_nodup _ []).1).sublist (List.take_sublist _ _)
  · cases provider with
    | error e => simp [suggest_subreddits]
    | ok data =>
      rw [suggest_subreddits]
      have hnd : (dedupeSeen [] ((extractSubredditCandidates data).filter
          (fun c => c ≠ ""))).Nodup := (dedupeSeen_nodup _ []).1
      have hperm := List.perm_insertionSort (overlapGE (toTokens products))
        (dedupeSeen [] ((extractSubredditCandidates data).filter (fun c => c ≠ "")))
      exact (hperm.nodup_iff.mpr hnd).sublist (List.take_sublist _ _)
  · intro e he
    subst he
    exact ⟨rfl, rfl⟩
  · intro data hd
    subst hd
    rw [suggest_reddit_queries, dedupeCap_eq_take _ [] 0 (by omega)]
  · cases provider with
    | error e => simp [suggest_subreddits]
    | ok data =>
      rw [suggest_subreddits]
      exact List.Pairwise.sublist (List.take_sublist _ _)
        (List.sorted_insertionSort (overlapGE (toTokens products)) _)

/-- C9 counterexample: with product "pixel" and provider candidates
["androidphones", "pixel"] (first-seen order), suggest_subreddits returns
["pixel", "androidphones"]: "pixel" has overlap score 1 and is sorted ahead
of the earlier-seen "androidphones" (score 0), so first-seen order is not
preserved. The reorder is forced by the distinct scores under any iteration
order of the intermediate Python set. -/
theorem C9_suggestions_cex :
    extractSubredditCandidates cexSubData = ["androidphones", "pixel"] ∧
    suggest_subreddits ["pixel"] (.ok cexSubData) = ["pixel", "androidphones"] ∧
    suggest_subreddits ["pixel"] (.ok cexSubData) ≠
      (dedupeSeen [] (extractSubredditCandidates cexSubData)).take 20 :=
  ⟨by decide, by decide, by decide⟩

/-- C10 (confirmed). An empty (but non-None) comment-id collection is falsy
in the `if comment_ids:` guard, so it adds no restriction: the selection with
`some []` equals the selection with `none`, namely every unprocessed comment
of the store. -/
theorem C10_empty_id_restriction (store : List CommentRow) :
    load_comments store (some []) = load_comments store none ∧
    load_comments store (some []) = store.filter (fun c => c.processed = false) := by
  exact ⟨rfl, rfl⟩
